import Mathlib

/-!
Verification of `src/java.base/unix/native/libjava/canonicalize_md.c`
(pathname canonicalization for Unix file systems).

Paths are modelled as `List Char` (the characters of a null-terminated C
string, terminator excluded).  The OS primitives `realpath` and
`pathconf(_, _PC_NAME_MAX)` are black-box external calls; they are modelled
as an environment of pure functions (`Canon.Env`), and `errno` values as
the inductive `Canon.Errno`.  `size_t` arithmetic is modelled as `Nat`
with an explicit reduction modulo `2 ^ 64`.
-/

deriving instance DecidableEq for Except

namespace Canon

/-- The POSIX error classifications used by the driver.  `EOTHER` stands
for every other `errno` value. -/
inductive Errno where
  | EINVAL
  | ELOOP
  | ENAMETOOLONG
  | ENOMEM
  | ENOENT
  | ENOTDIR
  | EACCES
  | EOTHER
deriving DecidableEq, Repr

/-- The scan loop of `removeDupSeparator`: `prev` is `prevChar` (the
previous input character); a character is dropped exactly when it is a
separator following a separator. -/
def dedupLoop (prev : Char) : List Char → List Char
  | [] => []
  | c :: rest =>
    if c = '/' ∧ prev = '/' then dedupLoop c rest else c :: dedupLoop c rest

/-- Function `removeDupSeparator` (canonicalize_md.c lines 50-76): `NULL`/empty
input yields `NULL`; otherwise duplicate separators are removed in place
and, when the last input character was a separator and more than one
character was written, the trailing separator is dropped. -/
def removeDupSeparator : List Char → Option (List Char)
  | [] => none
  | c :: rest =>
    let d := c :: dedupLoop c rest
    if (c :: rest).getLast? = some '/' ∧ 1 < d.length then some d.dropLast
    else some d

/-- The effect of `removeDupSeparator` on the buffer itself (the C
function mutates `path` in place and an empty path is left untouched). -/
def dedupPath (path : List Char) : List Char :=
  match removeDupSeparator path with
  | some q => q
  | none => path

/-- The character scan shared by `collapsible` and `splitNames`
(lines 82-131): it walks a name sequence, cutting a segment at each run
of separators.  `cur` holds the characters of the segment currently
being read, in reverse. -/
def segScan (cur : Option (List Char)) : List Char → List (List Char)
  | [] =>
    match cur with
    | some s => [s.reverse]
    | none => []
  | c :: rest =>
    if c = '/' then
      match cur with
      | some s => s.reverse :: segScan none rest
      | none => segScan none rest
    else
      match cur with
      | some s => segScan (some (c :: s)) rest
      | none => segScan (some [c]) rest

/-- Function `splitNames` (lines 113-131), at the level of the segment list it
records into `ix`: the scan registers a segment start at every position
reached after a separator run (a leading separator therefore records one
empty segment, as the C scan does). -/
def splitNames (names : List Char) : List (List Char) :=
  match names with
  | '/' :: rest => [] :: segScan none rest
  | l => segScan none l

/-- Function `collapsible` (lines 82-107): the number of names in the sequence if
any of them is `"."` or `".."`, zero otherwise. -/
def collapsible (names : List Char) : Nat :=
  if ∃ s ∈ splitNames names, s = ['.'] ∨ s = ['.', '.'] then
    (splitNames names).length
  else 0

/-- The backward scan `for (j = i - 1; j >= 0; j--) if (ix[j]) break;`
of `collapse` (lines 209-211): the nearest still-live entry before `i`. -/
def findPrevLive (ix : List (Option (List Char))) : Nat → Option Nat
  | 0 => none
  | j + 1 => if (ix.getD j none).isSome then some j else findPrevLive ix j

/-- Assignment `ix[j] = 0` for the scan's result when a live predecessor was found
(`if (j < 0) continue;` otherwise, line 214). -/
def clearPrev (ix : List (Option (List Char))) :
    Option Nat → List (Option (List Char))
  | some j => ix.set j none
  | none => ix

/-- The marking loop of `collapse` (lines 181-218) over the index array:
entry `i` is examined; a live `"."` is cleared; a live `".."` is cleared
together with the nearest preceding live entry when one exists.  The
first argument is fuel, instantiated with the number of entries. -/
def markLoopF : Nat → List (Option (List Char)) → Nat → List (Option (List Char))
  | 0, ix, _ => ix
  | fuel + 1, ix, i =>
    match ix.getD i none with
    | none => markLoopF fuel ix (i + 1)
    | some s =>
      if s = ['.'] then markLoopF fuel (ix.set i none) (i + 1)
      else if s = ['.', '.'] then
        markLoopF fuel (clearPrev (ix.set i none) (findPrevLive ix i)) (i + 1)
      else markLoopF fuel ix (i + 1)

/-- Function `joinNames` (lines 137-156): the surviving (non-cleared) names are
written back joined by single separators. -/
def joinNames (ix : List (Option (List Char))) : List Char :=
  List.intercalate ['/'] (ix.filterMap id)

/-- Line 171: `names = (path[0] == '/') ? path + 1 : path`. -/
def namesOf (p : List Char) : List Char :=
  if p.head? = some '/' then p.tail else p

/-- The leading separator preserved by line 171 for an absolute path. -/
def leadSep (p : List Char) : List Char :=
  if p.head? = some '/' then ['/'] else []

/-- Function `collapse` (lines 165-221): remove duplicate separators, short
circuit when fewer than two names or no dot name is present, otherwise
split, mark and rejoin, keeping the leading separator of an absolute
path. -/
def collapse (path : List Char) : List Char :=
  if collapsible (namesOf (dedupPath path)) < 2 then dedupPath path
  else
    leadSep (dedupPath path) ++
      joinNames (markLoopF (collapsible (namesOf (dedupPath path)))
        ((splitNames (namesOf (dedupPath path))).map some) 0)

/-- The external OS primitives consumed by the driver: `realpath`
(result, or the `errno` it fails with) and `pathconf(_, _PC_NAME_MAX)`
(a C `long`: `-1` on failure, `0` on permission denial). -/
structure Env where
  realpath : List Char → Except Errno (List Char)
  pathconf : List Char → Int

/-- The modulus of `size_t` arithmetic (LP64): `2 ^ 64`. -/
def SIZE_T_MOD : Nat := 2 ^ 64

/-- Conversion of a C `long` value to `size_t`, as in
`size_t nameMax; nameMax = pathconf(...)` (line 289/298): reduction
modulo `2 ^ 64`, so `-1` becomes `2 ^ 64 - 1`. -/
def toSizeT (i : Int) : Nat := (i % (SIZE_T_MOD : Int)).toNat

/-- Lines 322-326: the effective per-component limit.  The queried value
is first converted to `size_t`; only then is `nameMax < 1` tested, and
`NAME_MAX` (here the parameter `nameMaxDefault`) substituted. -/
def effNameMax (nameMaxDefault : Nat) (pc : Int) : Nat :=
  let nm := toSizeT pc
  if nm < 1 then nameMaxDefault else nm

/-- The components produced by `strtok_r(rest, "/", &rest)` (line 330):
the maximal nonempty runs of non-separator characters. -/
def strtokSlash (s : List Char) : List (List Char) :=
  (s.splitOn '/').filter (fun c => decide (c ≠ []))

/-- The final validation block (lines 313-337), applied on the fallback
path: the result must be shorter than `PATH_MAX` (so that its terminator
fits inside the bound), and every component must be within the effective
per-component limit computed from the previously captured `pathconf`
value `pc`. -/
def finalCheck (pmax nameMaxDefault : Nat) (pc : Int) (out : List Char) :
    Except Errno (List Char) :=
  if pmax ≤ out.length then .error .ENAMETOOLONG
  else
    if ∃ c ∈ strtokSlash out, effNameMax nameMaxDefault pc < c.length then
      .error .ENAMETOOLONG
    else .ok out

/-- The component-stripping walk (lines 264-287).  The argument is the
current position of `p` in the buffer; the walk decrements it one
character at a time, as the C `while ((--p > path) && (*p != '/'))`
does.  Reaching position `1` means `p == path`: the walk is exhausted
(`.ok none`).  At a separator position `k` the prefix `path[0..k)` is
handed to `realpath`; success stops the walk with `(k, result)`, a
retryable failure (`ENOENT`/`ENOTDIR`/`EACCES`) continues it, and any
other failure aborts the whole operation. -/
def fallbackLoop (env : Env) (path : List Char) :
    Nat → Except Errno (Option (Nat × List Char))
  | 0 => .ok none
  | 1 => .ok none
  | j + 2 =>
    if path.getD (j + 1) ' ' = '/' then
      match env.realpath (path.take (j + 1)) with
      | .ok r => .ok (some (j + 1, r))
      | .error e =>
        if e = .ENOENT ∨ e = .ENOTDIR ∨ e = .EACCES then
          fallbackLoop env path (j + 1)
        else .error e
    else fallbackLoop env path (j + 1)

/-- Function `JDK_Canonicalize` (lines 229-339).  `pmax` is `PATH_MAX`,
`nameMaxDefault` is `NAME_MAX`, `len` the caller-provided output
capacity.  The two guards come first; then `realpath` on the whole
input; terminal errors propagate; otherwise the walk runs and the
result is reassembled, collapsed and validated. -/
def JDK_Canonicalize (env : Env) (pmax nameMaxDefault : Nat)
    (orig : List Char) (len : Nat) : Except Errno (List Char) :=
  if len < pmax then .error .EINVAL
  else if pmax ≤ orig.length then .error .ENAMETOOLONG
  else
    match env.realpath orig with
    | .ok out => .ok (collapse out)
    | .error e =>
      if e = .EINVAL ∨ e = .ELOOP ∨ e = .ENAMETOOLONG ∨ e = .ENOMEM then
        .error e
      else
        -- strncpy(path, orig, PATH_MAX) and its truncation test
        -- (lines 257-261); unreachable here since strlen(orig) < PATH_MAX.
        if pmax ≤ orig.length then .error .ENAMETOOLONG
        else
          match fallbackLoop env orig orig.length with
          | .error e2 => .error e2
          | .ok (some (k, r)) =>
            -- lines 290-305: append the unresolved remainder to the
            -- resolved prefix.
            if len ≤ r.length + (orig.length - k) then .error .ENAMETOOLONG
            else
              let pc := env.pathconf r
              let rem := orig.drop k
              let rem2 :=
                if r ≠ [] ∧ r.getLast? = some '/' ∧ rem.head? = some '/' then
                  rem.tail
                else rem
              finalCheck pmax nameMaxDefault pc (collapse (r ++ rem2))
          | .ok none =>
            -- lines 306-311: nothing resolved; return the original path
            -- syntactically normalized.
            finalCheck pmax nameMaxDefault (env.pathconf ['/']) (collapse orig)

/-- Terminal error classes of the primary `realpath` call (line 248). -/
def terminalErr (e : Errno) : Prop :=
  e = .EINVAL ∨ e = .ELOOP ∨ e = .ENAMETOOLONG ∨ e = .ENOMEM

instance (e : Errno) : Decidable (terminalErr e) :=
  inferInstanceAs (Decidable
    (e = .EINVAL ∨ e = .ELOOP ∨ e = .ENAMETOOLONG ∨ e = .ENOMEM))

/-- Retryable error classes of the fallback walk (line 278). -/
def retryableErr (e : Errno) : Prop :=
  e = .ENOENT ∨ e = .ENOTDIR ∨ e = .EACCES

instance (e : Errno) : Decidable (retryableErr e) :=
  inferInstanceAs (Decidable (e = .ENOENT ∨ e = .ENOTDIR ∨ e = .EACCES))

/-- Every separator position of `path` strictly between `lo` and `hi`
marks a prefix on which `realpath` fails with a retryable error. -/
def walkRetry (env : Env) (path : List Char) (lo hi : Nat) : Prop :=
  ∀ k, lo < k → k < hi → path.getD k ' ' = '/' →
    ∃ e, env.realpath (path.take k) = .error e ∧ retryableErr e

/-- Two adjacent characters that are not a duplicate separator pair. -/
def sepRel (a b : Char) : Prop := ¬(a = '/' ∧ b = '/')

instance : DecidableRel sepRel := fun a b =>
  inferInstanceAs (Decidable (¬(a = '/' ∧ b = '/')))

/-- Reference form of the duplicate-separator contract, written from the
spec's words (§4.1): collapse every run of consecutive separators to one
(no two adjacent characters of the result are both separators), then
remove a trailing separator unless the entire result is the root
separator. -/
def dupSepSpec (p : List Char) : List Char :=
  let s := p.destutter sepRel
  if s.getLast? = some '/' ∧ s ≠ ['/'] then s.dropLast else s

/-- One step of the dot-segment collapse as the spec's words (§4.2 step
3) describe it: a `.` segment is removed; a `..` segment removes itself
together with the nearest preceding surviving segment when one exists
(and only itself otherwise); any other segment survives. -/
def collapseStep (acc : List (List Char)) (s : List Char) : List (List Char) :=
  if s = ['.'] then acc
  else if s = ['.', '.'] then acc.dropLast
  else acc ++ [s]

/-- Reference form of the dot-segment collapse, written from the spec's
words (§4.2 steps 2-4): split into name segments, process them left to
right with `collapseStep`, and reassemble the survivors with single
separators, preserving the leading separator of an absolute path. -/
def collapseClaim (path : List Char) : List Char :=
  leadSep path ++
    List.intercalate ['/'] ((splitNames (namesOf path)).foldl collapseStep [])

end Canon

/-! Concrete environments used by counterexamples and witnesses. -/

/-- Environment where `realpath` succeeds everywhere with a result whose single name
segment has 30 characters; `pathconf` reports a limit of 3. -/
def envC1 : Canon.Env :=
  ⟨fun _ => .ok ('/' :: List.replicate 30 'x'), fun _ => 3⟩

/-- Environment where `realpath` fails everywhere with `ENOENT`; `pathconf` fails
(returns `-1`). -/
def envC3 : Canon.Env := ⟨fun _ => .error .ENOENT, fun _ => -1⟩

/-- Environment where `realpath` fails everywhere with `ENOENT`; `pathconf` reports a
per-component limit of 2. -/
def envC4 : Canon.Env := ⟨fun _ => .error .ENOENT, fun _ => 2⟩

/-- Environment where `realpath` fails everywhere; `pathconf` always 0. -/
def envC6 : Canon.Env := ⟨fun _ => .error .EOTHER, fun _ => 0⟩

/-- Environment where `realpath` fails everywhere with the terminal error `ELOOP`. -/
def envC5a : Canon.Env := ⟨fun _ => .error .ELOOP, fun _ => 0⟩

/-- Environment where `realpath` fails with the non-retryable `EOTHER` on `"a"` and with
`ENOENT` elsewhere. -/
def envC5b : Canon.Env :=
  ⟨fun p => if p = ("a").toList then .error .EOTHER else .error .ENOENT,
   fun _ => 0⟩

/-- Environment where `realpath` resolves the prefix `"a"` to `"/r"` and fails with
`ENOENT` elsewhere; `pathconf` reports 255. -/
def envC4w : Canon.Env :=
  ⟨fun p => if p = ("a").toList then .ok (("/r").toList) else .error .ENOENT,
   fun _ => 255⟩

/-- Environment where `realpath` fails everywhere with `EACCES`; `pathconf` reports 255. -/
def envC4x : Canon.Env := ⟨fun _ => .error .EACCES, fun _ => 255⟩

/-- Environment where `realpath` succeeds everywhere with `"/w"`; `pathconf` reports 255. -/
def envC1a : Canon.Env := ⟨fun _ => .ok (("/w").toList), fun _ => 255⟩

/-- Environment where `realpath` fails everywhere with `ENOENT`; `pathconf` reports 7. -/
def envC1b : Canon.Env := ⟨fun _ => .error .ENOENT, fun _ => 7⟩

/-- Environment where `realpath` succeeds everywhere with `"/q"`; `pathconf` reports 255. -/
def envC9 : Canon.Env := ⟨fun _ => .ok (("/q").toList), fun _ => 255⟩

namespace Canon

/-- If every separator position below `j` yields a retryable failure,
the walk runs to exhaustion. -/
theorem fallbackLoop_exhaust (env : Env) (path : List Char) :
    ∀ j, walkRetry env path 0 j → fallbackLoop env path j = .ok none := by
  intro j
  induction j using Nat.strong_induction_on with
  | _ j ih =>
    intro hall
    match j with
    | 0 => rfl
    | 1 => rfl
    | m + 2 =>
      by_cases hsl : path.getD (m + 1) ' ' = '/'
      · obtain ⟨e, he, hr⟩ := hall (m + 1) (by omega) (by omega) hsl
        simp only [fallbackLoop, if_pos hsl, he]
        rw [if_pos (show e = .ENOENT ∨ e = .ENOTDIR ∨ e = .EACCES from hr)]
        exact ih (m + 1) (by omega) fun k h1 h2 h3 => hall k h1 (by omega) h3
      · simp only [fallbackLoop, if_neg hsl]
        exact ih (m + 1) (by omega) fun k h1 h2 h3 => hall k h1 (by omega) h3

/-- The walk stops at the longest separator-bounded proper prefix that
resolves, provided every longer one fails retryably. -/
theorem fallbackLoop_finds (env : Env) (path : List Char) (k : Nat)
    (r : List Char) (hk0 : 0 < k) (hsl : path.getD k ' ' = '/')
    (he : env.realpath (path.take k) = .ok r) :
    ∀ j, k < j → walkRetry env path k j →
      fallbackLoop env path j = .ok (some (k, r)) := by
  intro j
  induction j using Nat.strong_induction_on with
  | _ j ih =>
    intro hkj hall
    match j with
    | 0 => omega
    | 1 => omega
    | m + 2 =>
      rcases Nat.lt_or_ge k (m + 1) with hlt | hge
      · by_cases hsl2 : path.getD (m + 1) ' ' = '/'
        · obtain ⟨e, he2, hr2⟩ := hall (m + 1) hlt (by omega) hsl2
          simp only [fallbackLoop, if_pos hsl2, he2]
          rw [if_pos (show e = .ENOENT ∨ e = .ENOTDIR ∨ e = .EACCES from hr2)]
          exact ih (m + 1) (by omega) hlt fun t h1 h2 h3 => hall t h1 (by omega) h3
        · simp only [fallbackLoop, if_neg hsl2]
          exact ih (m + 1) (by omega) hlt fun t h1 h2 h3 => hall t h1 (by omega) h3
      · have hkm : k = m + 1 := by omega
        subst hkm
        simp only [fallbackLoop, if_pos hsl, he]

/-- A non-retryable failure inside the walk aborts the whole operation
with that error, provided every longer prefix failed retryably. -/
theorem fallbackLoop_abort (env : Env) (path : List Char) (k : Nat)
    (e2 : Errno) (hk0 : 0 < k) (hsl : path.getD k ' ' = '/')
    (he : env.realpath (path.take k) = .error e2) (hnr : ¬ retryableErr e2) :
    ∀ j, k < j → walkRetry env path k j →
      fallbackLoop env path j = .error e2 := by
  intro j
  induction j using Nat.strong_induction_on with
  | _ j ih =>
    intro hkj hall
    match j with
    | 0 => omega
    | 1 => omega
    | m + 2 =>
      rcases Nat.lt_or_ge k (m + 1) with hlt | hge
      · by_cases hsl2 : path.getD (m + 1) ' ' = '/'
        · obtain ⟨e, he2, hr2⟩ := hall (m + 1) hlt (by omega) hsl2
          simp only [fallbackLoop, if_pos hsl2, he2]
          rw [if_pos (show e = .ENOENT ∨ e = .ENOTDIR ∨ e = .EACCES from hr2)]
          exact ih (m + 1) (by omega) hlt fun t h1 h2 h3 => hall t h1 (by omega) h3
        · simp only [fallbackLoop, if_neg hsl2]
          exact ih (m + 1) (by omega) hlt fun t h1 h2 h3 => hall t h1 (by omega) h3
      · have hkm : k = m + 1 := by omega
        subst hkm
        simp only [fallbackLoop, if_pos hsl, he]
        rw [if_neg (show ¬(e2 = .ENOENT ∨ e2 = .ENOTDIR ∨ e2 = .EACCES) from hnr)]

/-- Inversion of a successful final validation. -/
theorem finalCheck_ok {pmax nmd : Nat} {pc : Int} {out r : List Char}
    (h : finalCheck pmax nmd pc out = .ok r) :
    r = out ∧ out.length < pmax ∧
      ∀ c ∈ strtokSlash out, c.length ≤ effNameMax nmd pc := by
  unfold finalCheck at h
  by_cases h1 : pmax ≤ out.length
  · rw [if_pos h1] at h
    exact absurd h (by simp)
  · rw [if_neg h1] at h
    by_cases h2 : ∃ c ∈ strtokSlash out, effNameMax nmd pc < c.length
    · rw [if_pos h2] at h
      exact absurd h (by simp)
    · rw [if_neg h2] at h
      push_neg at h2
      exact ⟨(Except.ok.inj h).symm, by omega, h2⟩

/-- Reduction of `JDK_Canonicalize` to the walk's outcome once both
guards pass and the primary `realpath` call fails non-terminally. -/
theorem JDK_fallback_eq (env : Env) (pmax nmd : Nat) (orig : List Char)
    (len : Nat) (h1 : pmax ≤ len) (h2 : orig.length < pmax) (e0 : Errno)
    (he0 : env.realpath orig = .error e0) (ht : ¬ terminalErr e0) :
    JDK_Canonicalize env pmax nmd orig len =
      match fallbackLoop env orig orig.length with
      | .error e2 => .error e2
      | .ok (some (k, r)) =>
        if len ≤ r.length + (orig.length - k) then .error .ENAMETOOLONG
        else
          finalCheck pmax nmd (env.pathconf r)
            (collapse (r ++
              (if r ≠ [] ∧ r.getLast? = some '/' ∧
                  (orig.drop k).head? = some '/'
                then (orig.drop k).tail else orig.drop k)))
      | .ok none =>
        finalCheck pmax nmd (env.pathconf ['/']) (collapse orig) := by
  unfold JDK_Canonicalize
  rw [if_neg (show ¬ len < pmax by omega),
    if_neg (show ¬ pmax ≤ orig.length by omega)]
  simp only [he0]
  rw [if_neg
      (show ¬(e0 = .EINVAL ∨ e0 = .ELOOP ∨ e0 = .ENAMETOOLONG ∨ e0 = .ENOMEM)
        from ht),
    if_neg (show ¬ pmax ≤ orig.length by omega)]

end Canon

/-- C1, counterexample: on the primary path (`realpath` succeeds on the
full input) `JDK_Canonicalize` returns success without applying the
final validation: the returned path contains a 30-character name segment
although `NAME_MAX` is 5 and the filesystem (`pathconf`) reports 3, so
the per-segment bound of the claim is violated by a successful call
instead of failing with `ENAMETOOLONG`. -/
theorem c1_counterexample :
    Canon.JDK_Canonicalize envC1 50 5 (("/a").toList) 50 =
      .ok ('/' :: List.replicate 30 'x') ∧
    (∃ c ∈ Canon.strtokSlash ('/' :: List.replicate 30 'x'),
      Canon.effNameMax 5 (envC1.pathconf ('/' :: List.replicate 30 'x')) <
        c.length) := by decide

/-- C2: the claim (and spec §8) says collapsing `"../a"` preserves the
unresolvable leading `".."` and yields `"../a"`; the code (lines
207-215) clears the `".."` entry even when no preceding name exists, so
`collapse "../a"` evaluates to `"a"`.  This contradicts the function's
own header comment (lines 160-161: a `".."` name may be eliminated if it
follows a name), so the claim is recorded as a code bug. -/
theorem c2_collapse_drops_leading_dotdot :
    Canon.collapse (("../a").toList) = ("a").toList ∧
    ("a").toList ≠ ("../a").toList := by decide

/-- C3: when `pathconf` fails with `-1`, the claim (and the comment at
lines 322-323) says the default `NAME_MAX` is used; but the `long` value
`-1` is stored into a `size_t`, becoming `2 ^ 64 - 1`, so the
`nameMax < 1` test misses it and effectively no per-component limit is
enforced: a 7-character component passes although `NAME_MAX` is 5, and
the call succeeds where the claim requires `ENAMETOOLONG`. -/
theorem c3_pathconf_failure_bypasses_limit :
    Canon.JDK_Canonicalize envC3 60 5 (("aaaaaaa").toList) 60 =
      .ok (("aaaaaaa").toList) ∧
    (∃ c ∈ Canon.strtokSlash (("aaaaaaa").toList), 5 < c.length) ∧
    Canon.effNameMax 5 (-1) = 2 ^ 64 - 1 := by decide

/-- C4, counterexample: for a path where no prefix resolves at all, the
claim says the syntactically normalized original is returned as success;
but the final validation still runs on the exhausted-fallback result, so
with a filesystem per-component limit of 2 the call fails with
`ENAMETOOLONG` even though the normalized original is `"aaaa"`. -/
theorem c4_counterexample :
    Canon.JDK_Canonicalize envC4 10 99 (("aaaa").toList) 10 =
      .error .ENAMETOOLONG ∧
    Canon.collapse (("aaaa").toList) = ("aaaa").toList := by decide

/-- C6: the two precondition guards (lines 232-240).  An output capacity
below `PATH_MAX` fails with `EINVAL`; otherwise an input of length at
least `PATH_MAX` fails with `ENAMETOOLONG`.  The conclusion holds for
every environment, which is the model-level statement that both checks
precede any filesystem access. -/
theorem c6_precondition_guards (env : Canon.Env) (pmax nmd : Nat)
    (orig : List Char) (len : Nat) :
    (len < pmax →
      Canon.JDK_Canonicalize env pmax nmd orig len = .error .EINVAL) ∧
    (pmax ≤ len → pmax ≤ orig.length →
      Canon.JDK_Canonicalize env pmax nmd orig len = .error .ENAMETOOLONG) := by
  constructor
  · intro h
    unfold Canon.JDK_Canonicalize
    rw [if_pos h]
  · intro h1 h2
    unfold Canon.JDK_Canonicalize
    rw [if_neg (by omega), if_pos h2]

/-- Witness for C6 at concrete inputs. -/
theorem c6_witness :
    Canon.JDK_Canonicalize envC6 4 1 (("a").toList) 3 = .error .EINVAL ∧
    Canon.JDK_Canonicalize envC6 4 1 (("abcd").toList) 4 =
      .error .ENAMETOOLONG :=
  ⟨(c6_precondition_guards envC6 4 1 (("a").toList) 3).1 (by decide),
   (c6_precondition_guards envC6 4 1 (("abcd").toList) 4).2 (by decide)
     (by decide)⟩

/-- C8, counterexample: the claim quantifies over every path free of
duplicate separators, but a path with a single name segment is returned
unchanged by the short circuit (lines 176-177): `collapse "."` keeps the
`"."` segment, while the claimed segment processing would remove it and
produce the empty path. -/
theorem c8_counterexample :
    Canon.collapse ((".").toList) = (".").toList ∧
    Canon.collapseClaim ((".").toList) = [] := by decide

/-- C10: a path whose separator-normalized form has fewer than two name
segments is returned by `collapse` exactly as duplicate-separator
removal leaves it (the `nc < 2` short circuit of lines 176-177); in
particular `"."`, `".."`, `"/."` and `"/.."` are returned as-is. -/
theorem c10_short_circuit (path : List Char)
    (h : (Canon.splitNames (Canon.namesOf (Canon.dedupPath path))).length < 2) :
    Canon.collapse path = Canon.dedupPath path := by
  unfold Canon.collapse
  have hnc : Canon.collapsible (Canon.namesOf (Canon.dedupPath path)) < 2 := by
    unfold Canon.collapsible
    split
    · exact h
    · omega
  simp only [hnc, if_pos]

/-- Witness for C10 at `"."`. -/
theorem c10_witness : Canon.collapse ((".").toList) = (".").toList :=
  (c10_short_circuit ((".").toList) (by decide)).trans (by decide)

/-- C5: a terminal error class (`EINVAL`, `ELOOP`, `ENAMETOOLONG`,
`ENOMEM`) from `realpath` on the full input makes `JDK_Canonicalize`
fail immediately with that error; and inside the fallback walk, a
failure outside `ENOENT`/`ENOTDIR`/`EACCES` at some separator-bounded
prefix (all longer ones having failed retryably) aborts the whole
operation with that error. -/
theorem c5_terminal_and_walk_errors (env : Canon.Env) (pmax nmd : Nat)
    (orig : List Char) (len : Nat) (h1 : pmax ≤ len)
    (h2 : orig.length < pmax) :
    (∀ e, env.realpath orig = .error e → Canon.terminalErr e →
      Canon.JDK_Canonicalize env pmax nmd orig len = .error e) ∧
    (∀ e0 k e2, env.realpath orig = .error e0 → ¬ Canon.terminalErr e0 →
      0 < k → k < orig.length → orig.getD k ' ' = '/' →
      env.realpath (orig.take k) = .error e2 → ¬ Canon.retryableErr e2 →
      Canon.walkRetry env orig k orig.length →
      Canon.JDK_Canonicalize env pmax nmd orig len = .error e2) := by
  constructor
  · intro e he hte
    unfold Canon.JDK_Canonicalize
    rw [if_neg (show ¬ len < pmax by omega),
      if_neg (show ¬ pmax ≤ orig.length by omega)]
    simp only [he]
    rw [if_pos
      (show e = .EINVAL ∨ e = .ELOOP ∨ e = .ENAMETOOLONG ∨ e = .ENOMEM
        from hte)]
  · intro e0 k e2 he0 ht hk0 hkl hsl he2 hnr hw
    rw [Canon.JDK_fallback_eq env pmax nmd orig len h1 h2 e0 he0 ht,
      Canon.fallbackLoop_abort env orig k e2 hk0 hsl he2 hnr orig.length hkl hw]

/-- Witness for C5: `ELOOP` on `"a"` propagates; on `"a/b"` the prefix
`"a"` failing with a non-retryable error aborts with that error. -/
theorem c5_witness :
    Canon.JDK_Canonicalize envC5a 10 99 (("a").toList) 10 = .error .ELOOP ∧
    Canon.JDK_Canonicalize envC5b 10 99 (("a/b").toList) 10 =
      .error .EOTHER := by
  constructor
  · exact (c5_terminal_and_walk_errors envC5a 10 99 (("a").toList) 10
      (by decide) (by decide)).1 .ELOOP rfl (by decide)
  · refine (c5_terminal_and_walk_errors envC5b 10 99 (("a/b").toList) 10
      (by decide) (by decide)).2 .ENOENT 1 .EOTHER (by decide) (by decide)
      (by decide) (by decide) (by decide) (by decide) (by decide) ?_
    intro kk h1 h2 h3
    have : kk = 2 := by
      have : (("a/b").toList).length = 3 := by decide
      omega
    subst this
    exact absurd h3 (by decide)

/-- C4 (amended): with the guards passed and a non-terminal failure of
`realpath` on the full input, the walk strips trailing segments in
descending order of separator position, never truncating past the first
character.  If the prefix at separator position `k` resolves to `r` (all
longer ones failing retryably), the result is `r` concatenated with the
unresolved remainder, one separator between them, failing with
`ENAMETOOLONG` when the concatenation would reach the capacity, then
dot-collapsed and passed through final validation.  If no prefix
resolves, the result is the collapsed original input passed through
final validation. -/
theorem c4_fallback_characterization (env : Canon.Env) (pmax nmd : Nat)
    (orig : List Char) (len : Nat) (h1 : pmax ≤ len)
    (h2 : orig.length < pmax) (e0 : Canon.Errno)
    (he0 : env.realpath orig = .error e0) (ht : ¬ Canon.terminalErr e0) :
    (∀ k r, 0 < k → k < orig.length → orig.getD k ' ' = '/' →
      env.realpath (orig.take k) = .ok r →
      Canon.walkRetry env orig k orig.length →
      Canon.JDK_Canonicalize env pmax nmd orig len =
        if len ≤ r.length + (orig.length - k) then .error .ENAMETOOLONG
        else
          Canon.finalCheck pmax nmd (env.pathconf r)
            (Canon.collapse (r ++
              (if r ≠ [] ∧ r.getLast? = some '/' ∧
                  (orig.drop k).head? = some '/'
                then (orig.drop k).tail else orig.drop k)))) ∧
    (Canon.walkRetry env orig 0 orig.length →
      Canon.JDK_Canonicalize env pmax nmd orig len =
        Canon.finalCheck pmax nmd (env.pathconf ['/'])
          (Canon.collapse orig)) := by
  constructor
  · intro k r hk0 hkl hsl he hw
    rw [Canon.JDK_fallback_eq env pmax nmd orig len h1 h2 e0 he0 ht,
      Canon.fallbackLoop_finds env orig k r hk0 hsl he orig.length hkl hw]
  · intro hw
    rw [Canon.JDK_fallback_eq env pmax nmd orig len h1 h2 e0 he0 ht,
      Canon.fallbackLoop_exhaust env orig orig.length hw]

/-- Witness for C4: on `"a/b"` with the prefix `"a"` resolving to
`"/r"`, the result is `"/r/b"`; with every prefix failing retryably the
collapsed original passes validation and is returned. -/
theorem c4_witness :
    Canon.JDK_Canonicalize envC4w 10 99 (("a/b").toList) 10 =
      .ok (("/r/b").toList) ∧
    Canon.JDK_Canonicalize envC4x 10 99 (("a/b").toList) 10 =
      .ok (("a/b").toList) := by
  constructor
  · refine ((c4_fallback_characterization envC4w 10 99 (("a/b").toList) 10
      (by decide) (by decide) .ENOENT (by decide) (by decide)).1 1
      (("/r").toList) (by decide) (by decide) (by decide) (by decide)
      ?_).trans (by decide)
    intro kk h1 h2 h3
    have : kk = 2 := by
      have : (("a/b").toList).length = 3 := by decide
      omega
    subst this
    exact absurd h3 (by decide)
  · refine ((c4_fallback_characterization envC4x 10 99 (("a/b").toList) 10
      (by decide) (by decide) .EACCES (by decide) (by decide)).2
      ?_).trans (by decide)
    intro kk h1 h2 h3
    have hl3 : (("a/b").toList).length = 3 := by decide
    have : kk = 1 ∨ kk = 2 := by omega
    rcases this with rfl | rfl
    · exact ⟨.EACCES, rfl, by decide⟩
    · exact absurd h3 (by decide)

/-- C1 (amended): final validation belongs to the fallback path only.
On the primary path the collapsed `realpath` result is returned without
validation; on the fallback path every success satisfies the validated
bounds: result shorter than `PATH_MAX` (terminator inside the bound) and
every name segment within the effective per-segment maximum computed
from the constant `pathconf` value. -/
theorem c1_validation_fallback_only (env : Canon.Env) (pmax nmd : Nat)
    (orig : List Char) (len : Nat) (nmq : Int) (h1 : pmax ≤ len)
    (h2 : orig.length < pmax) (hpc : ∀ p, env.pathconf p = nmq) :
    (∀ w, env.realpath orig = .ok w →
      Canon.JDK_Canonicalize env pmax nmd orig len =
        .ok (Canon.collapse w)) ∧
    (∀ e0 r, env.realpath orig = .error e0 → ¬ Canon.terminalErr e0 →
      Canon.JDK_Canonicalize env pmax nmd orig len = .ok r →
      r.length < pmax ∧
        ∀ c ∈ Canon.strtokSlash r, c.length ≤ Canon.effNameMax nmd nmq) := by
  constructor
  · intro w hw
    unfold Canon.JDK_Canonicalize
    rw [if_neg (show ¬ len < pmax by omega),
      if_neg (show ¬ pmax ≤ orig.length by omega)]
    simp only [hw]
  · intro e0 r he0 ht hok
    rw [Canon.JDK_fallback_eq env pmax nmd orig len h1 h2 e0 he0 ht] at hok
    cases hfl : Canon.fallbackLoop env orig orig.length with
    | error e2 =>
      rw [hfl] at hok
      exact absurd hok (by simp)
    | ok o =>
      rw [hfl] at hok
      cases o with
      | none =>
        simp only [] at hok
        obtain ⟨hr, hl, hc⟩ := Canon.finalCheck_ok hok
        subst hr
        exact ⟨hl, by rw [hpc ['/']] at hc; exact hc⟩
      | some p =>
        obtain ⟨k, rr⟩ := p
        simp only [] at hok
        by_cases hcap : len ≤ rr.length + (orig.length - k)
        · rw [if_pos hcap] at hok
          exact absurd hok (by simp)
        · rw [if_neg hcap] at hok
          obtain ⟨hr, hl, hc⟩ := Canon.finalCheck_ok hok
          subst hr
          exact ⟨hl, by rw [hpc rr] at hc; exact hc⟩

/-- Witness for C1: the primary path returns the collapsed `realpath`
output; the fallback path's successful result satisfies the validated
bounds. -/
theorem c1_witness :
    Canon.JDK_Canonicalize envC1a 10 5 (("a").toList) 10 =
      .ok (("/w").toList) ∧
    ((("ab").toList).length < 10 ∧
      ∀ c ∈ Canon.strtokSlash (("ab").toList),
        c.length ≤ Canon.effNameMax 5 7) := by
  constructor
  · exact ((c1_validation_fallback_only envC1a 10 5 (("a").toList) 10 255
      (by decide) (by decide) (fun _ => rfl)).1 (("/w").toList)
      rfl).trans (by decide)
  · exact (c1_validation_fallback_only envC1b 10 5 (("ab").toList) 10 7
      (by decide) (by decide) (fun _ => rfl)).2 .ENOENT (("ab").toList)
      rfl (by decide) (by decide)

namespace Canon

/-- The scan of `removeDupSeparator` is `destutter'` for `sepRel`: the
pending previous character followed by the deduplicated remainder. -/
theorem dedupLoop_destutter' :
    ∀ (l : List Char) (prev : Char),
      prev :: dedupLoop prev l = List.destutter' sepRel prev l := by
  intro l
  induction l with
  | nil => intro prev; rfl
  | cons h t ih =>
    intro prev
    by_cases hc : h = '/' ∧ prev = '/'
    · have hps : prev = h := by rw [hc.1, hc.2]
      rw [dedupLoop, if_pos hc, List.destutter'_cons,
        if_neg (show ¬ sepRel prev h from not_not_intro ⟨hc.2, hc.1⟩)]
      rw [hps]
      exact ih h
    · rw [dedupLoop, if_neg hc, List.destutter'_cons,
        if_pos (show sepRel prev h from fun hand => hc ⟨hand.2, hand.1⟩)]
      rw [← ih h]

/-- Lemma: `destutter'` for `sepRel` preserves the last element: the relation
only ever drops a character equal to its predecessor. -/
theorem destutter'_sep_getLast? :
    ∀ (l : List Char) (a : Char),
      (List.destutter' sepRel a l).getLast? = (a :: l).getLast? := by
  intro l
  induction l with
  | nil => intro a; rfl
  | cons h t ih =>
    intro a
    rw [List.destutter'_cons]
    by_cases hr : sepRel a h
    · rw [if_pos hr]
      have hne : List.destutter' sepRel h t ≠ [] :=
        List.ne_nil_of_mem (List.mem_destutter' t sepRel h)
      rw [List.getLast?_cons_cons]
      cases hd : List.destutter' sepRel h t with
      | nil => exact absurd hd hne
      | cons x xs =>
        calc (a :: x :: xs).getLast? = (x :: xs).getLast? :=
              List.getLast?_cons_cons
          _ = (h :: t).getLast? := by rw [← hd]; exact ih h
    · rw [if_neg hr]
      have hah : a = '/' ∧ h = '/' := not_not.mp hr
      cases t with
      | nil =>
        rw [ih a]
        show some a = (a :: [h]).getLast?
        rw [List.getLast?_cons_cons]
        show some a = some h
        rw [hah.1, hah.2]
      | cons x t2 =>
        rw [ih a, List.getLast?_cons_cons, List.getLast?_cons_cons,
          List.getLast?_cons_cons]

end Canon

/-- C7: `removeDupSeparator` meets its contract: a null/empty path
yields null; otherwise the result is the input with every run of
consecutive separators collapsed to one (`destutter` of the
no-adjacent-duplicate-separator relation) and a trailing separator
removed unless the entire result is the root separator. -/
theorem c7_removeDupSeparator_spec :
    Canon.removeDupSeparator [] = none ∧
    ∀ p : List Char, p ≠ [] →
      Canon.removeDupSeparator p = some (Canon.dupSepSpec p) := by
  refine ⟨rfl, ?_⟩
  intro p hp
  cases p with
  | nil => exact absurd rfl hp
  | cons c rest =>
    have hd : c :: Canon.dedupLoop c rest =
        List.destutter' Canon.sepRel c rest :=
      Canon.dedupLoop_destutter' rest c
    have hg : (c :: Canon.dedupLoop c rest).getLast? =
        (c :: rest).getLast? := by
      rw [hd]; exact Canon.destutter'_sep_getLast? rest c
    have hdst : List.destutter Canon.sepRel (c :: rest) =
        c :: Canon.dedupLoop c rest := hd.symm
    unfold Canon.removeDupSeparator Canon.dupSepSpec
    simp only [hdst]
    have hiff : ((c :: rest).getLast? = some '/' ∧
          1 < (c :: Canon.dedupLoop c rest).length) ↔
        ((c :: Canon.dedupLoop c rest).getLast? = some '/' ∧
          c :: Canon.dedupLoop c rest ≠ ['/']) := by
      rw [hg]
      cases hdl : Canon.dedupLoop c rest with
      | nil =>
        constructor
        · intro hand
          have hlen := hand.2
          simp at hlen
        · intro hand
          rw [hdl] at hg
          have hc : c = '/' := by
            have h2 : ([c] : List Char).getLast? = some '/' := hg.trans hand.1
            simpa using h2
          exact absurd (by rw [hc]) hand.2
      | cons x xs =>
        constructor
        · intro hand
          refine ⟨hand.1, ?_⟩
          intro heq
          simp at heq
        · intro hand
          refine ⟨hand.1, ?_⟩
          simp
    rw [if_congr hiff rfl rfl]
    split <;> rfl

/-- Witness for C7 at `"a//b///c"`. -/
theorem c7_witness :
    Canon.removeDupSeparator (("a//b///c").toList) =
      some (("a/b/c").toList) :=
  ((c7_removeDupSeparator_spec).2 (("a//b///c").toList) (by decide)).trans
    (by decide)

namespace Canon

/-- Reading with `getD` at the length of the left part of an append. -/
theorem getD_append_len {γ : Type} (pre : List γ) (x : γ) (rest : List γ)
    (d : γ) : (pre ++ x :: rest).getD pre.length d = x := by
  rw [List.getD_eq_getElem?_getD, List.getElem?_append_right (Nat.le_refl _)]
  simp

/-- Writing with `set` at the length of the left part of an append. -/
theorem set_append_len {γ : Type} (pre : List γ) (x v : γ) (rest : List γ) :
    (pre ++ x :: rest).set pre.length v = pre ++ v :: rest := by
  rw [List.set_append_right _ _ (Nat.le_refl _)]
  simp

/-- Reading with `getD` below the length of the left part of an append. -/
theorem getD_append_lt {γ : Type} (pre suf : List γ) (j : Nat) (d : γ)
    (h : j < pre.length) : (pre ++ suf).getD j d = pre.getD j d := by
  rw [List.getD_eq_getElem?_getD, List.getD_eq_getElem?_getD,
    List.getElem?_append_left h]

/-- Applying `filterMap id` drops a leading dead entry. -/
theorem filterMap_id_cons_none {γ : Type} (t : List (Option γ)) :
    (none :: t).filterMap id = t.filterMap id := rfl

/-- Applying `filterMap id` keeps a leading live entry. -/
theorem filterMap_id_cons_some {γ : Type} (a : γ) (t : List (Option γ)) :
    (some a :: t).filterMap id = a :: t.filterMap id := rfl

/-- An entry read as `some` contributes to `filterMap id`. -/
theorem opt_getD_some_mem_filterMap {γ : Type} :
    ∀ (l : List (Option γ)) (j : Nat) (a : γ),
      l.getD j none = some a → a ∈ l.filterMap id := by
  intro l
  induction l with
  | nil =>
    intro j a h
    simp [List.getD] at h
  | cons x t ih =>
    intro j a h
    cases j with
    | zero =>
      rw [List.getD_cons_zero] at h
      subst h
      rw [filterMap_id_cons_some]
      exact List.mem_cons_self a _
    | succ m =>
      rw [List.getD_cons_succ] at h
      cases x with
      | none =>
        rw [filterMap_id_cons_none]
        exact ih m a h
      | some b =>
        rw [filterMap_id_cons_some]
        exact List.mem_cons_of_mem b (ih m a h)

/-- A list of all-`none` entries has an empty `filterMap id`. -/
theorem opt_all_none_filterMap {γ : Type} :
    ∀ l : List (Option γ),
      (∀ m, m < l.length → l.getD m none = none) → l.filterMap id = [] := by
  intro l
  induction l with
  | nil => intro _; rfl
  | cons x t ih =>
    intro h
    have h0 := h 0 (by simp)
    rw [List.getD_cons_zero] at h0
    subst h0
    rw [filterMap_id_cons_none]
    refine ih fun m hm => ?_
    have := h (m + 1) (by simp only [List.length_cons]; omega)
    rwa [List.getD_cons_succ] at this

/-- Clearing the last live entry removes the last element of
`filterMap id`. -/
theorem opt_set_none_filterMap_dropLast {γ : Type} :
    ∀ (l : List (Option γ)) (j : Nat) (a : γ),
      l.getD j none = some a →
      (∀ j2, j < j2 → j2 < l.length → l.getD j2 none = none) →
      (l.set j none).filterMap id = (l.filterMap id).dropLast := by
  intro l
  induction l with
  | nil =>
    intro j a h _
    simp [List.getD] at h
  | cons x t ih =>
    intro j a hj hafter
    cases j with
    | zero =>
      rw [List.getD_cons_zero] at hj
      subst hj
      rw [List.set_cons_zero, filterMap_id_cons_none, filterMap_id_cons_some]
      have ht : t.filterMap id = [] := by
        refine opt_all_none_filterMap t fun m hm => ?_
        have := hafter (m + 1) (by omega)
          (by simp only [List.length_cons]; omega)
        rwa [List.getD_cons_succ] at this
      rw [ht]
      rfl
    | succ m =>
      rw [List.getD_cons_succ] at hj
      have hrec := ih m a hj fun j2 h1 h2 => by
        have := hafter (j2 + 1) (by omega)
          (by simp only [List.length_cons]; omega)
        rwa [List.getD_cons_succ] at this
      rw [List.set_cons_succ]
      cases x with
      | none =>
        rw [filterMap_id_cons_none, filterMap_id_cons_none]
        exact hrec
      | some b =>
        rw [filterMap_id_cons_some, filterMap_id_cons_some]
        have hne : t.filterMap id ≠ [] :=
          List.ne_nil_of_mem (opt_getD_some_mem_filterMap t m a hj)
        rw [List.dropLast_cons_of_ne_nil hne, hrec]

/-- Scan `findPrevLive` only inspects entries below its bound. -/
theorem findPrevLive_congr :
    ∀ (i : Nat) (l1 l2 : List (Option (List Char))),
      (∀ j, j < i → l1.getD j none = l2.getD j none) →
      findPrevLive l1 i = findPrevLive l2 i := by
  intro i
  induction i with
  | zero => intro l1 l2 _; rfl
  | succ m ih =>
    intro l1 l2 h
    unfold findPrevLive
    rw [h m (by omega), ih l1 l2 fun j hj => h j (by omega)]

/-- A failed backward scan means every earlier entry is dead. -/
theorem findPrevLive_none_spec :
    ∀ (i : Nat) (l : List (Option (List Char))),
      findPrevLive l i = none → ∀ j, j < i → l.getD j none = none := by
  intro i
  induction i with
  | zero => intro l _ j hj; omega
  | succ m ih =>
    intro l h j hj
    unfold findPrevLive at h
    by_cases hm : (l.getD m none).isSome
    · rw [if_pos hm] at h
      simp at h
    · rw [if_neg hm] at h
      rcases Nat.lt_or_ge j m with hl | hg
      · exact ih l h j hl
      · have hjm : j = m := by omega
        subst hjm
        cases hx : l.getD j none with
        | none => rfl
        | some v => rw [hx] at hm; simp at hm

/-- A successful backward scan yields the nearest preceding live entry:
it is live, below the bound, and everything strictly between is dead. -/
theorem findPrevLive_some_spec :
    ∀ (i : Nat) (l : List (Option (List Char))) (j : Nat),
      findPrevLive l i = some j →
      j < i ∧ (∃ a, l.getD j none = some a) ∧
        ∀ j2, j < j2 → j2 < i → l.getD j2 none = none := by
  intro i
  induction i with
  | zero => intro l j h; simp [findPrevLive] at h
  | succ m ih =>
    intro l j h
    unfold findPrevLive at h
    by_cases hm : (l.getD m none).isSome
    · rw [if_pos hm] at h
      obtain rfl : m = j := Option.some.inj h
      exact ⟨by omega, Option.isSome_iff_exists.mp hm,
        fun j2 h1 h2 => by omega⟩
    · rw [if_neg hm] at h
      obtain ⟨h1, h2, h3⟩ := ih l j h
      refine ⟨by omega, h2, fun j2 hj2 hj2m => ?_⟩
      rcases Nat.lt_or_ge j2 m with hl | hg
      · exact h3 j2 hj2 hl
      · have hjm : j2 = m := by omega
        subst hjm
        cases hx : l.getD j2 none with
        | none => rfl
        | some v => rw [hx] at hm; simp at hm

/-- The marking loop computes, on the live entries, exactly the
left-to-right fold of `collapseStep`: processed entries form the
accumulator, the remaining ones the input. -/
theorem markLoopF_filterMap :
    ∀ (fuel : Nat) (pre suf : List (Option (List Char))),
      fuel = suf.length →
      (markLoopF fuel (pre ++ suf) pre.length).filterMap id =
        (suf.filterMap id).foldl collapseStep (pre.filterMap id) := by
  intro fuel
  induction fuel with
  | zero =>
    intro pre suf h
    obtain rfl : suf = [] := List.eq_nil_of_length_eq_zero h.symm
    simp [markLoopF]
  | succ f ih =>
    intro pre suf h
    cases suf with
    | nil => simp at h
    | cons x rest =>
      have hf : f = rest.length := by
        simp only [List.length_cons] at h
        omega
      cases x with
      | none =>
        simp only [markLoopF, getD_append_len]
        rw [List.append_cons pre none rest,
          show pre.length + 1 = (pre ++ [none]).length by simp,
          ih (pre ++ [none]) rest hf]
        simp
      | some s =>
        simp only [markLoopF, getD_append_len]
        by_cases hdot : s = ['.']
        · subst hdot
          rw [if_pos rfl, set_append_len, List.append_cons pre none rest,
            show pre.length + 1 = (pre ++ [none]).length by simp,
            ih (pre ++ [none]) rest hf]
          simp [collapseStep]
        · rw [if_neg hdot]
          by_cases hdd : s = ['.', '.']
          · subst hdd
            rw [if_pos rfl, set_append_len]
            have hcongr : findPrevLive (pre ++ some ['.', '.'] :: rest)
                pre.length = findPrevLive pre pre.length :=
              findPrevLive_congr pre.length _ pre
                fun j hj => getD_append_lt pre _ j none hj
            rw [hcongr]
            cases hfp : findPrevLive pre pre.length with
            | none =>
              have hpre : ∀ j, j < pre.length → pre.getD j none = none :=
                findPrevLive_none_spec pre.length pre hfp
              have hfm : pre.filterMap id = [] :=
                opt_all_none_filterMap pre fun m hm => hpre m hm
              simp only [clearPrev]
              rw [List.append_cons pre none rest,
                show pre.length + 1 = (pre ++ [none]).length by simp,
                ih (pre ++ [none]) rest hf]
              simp [collapseStep, hfm]
            | some j =>
              obtain ⟨hji, ⟨a, hja⟩, hafter⟩ :=
                findPrevLive_some_spec pre.length pre j hfp
              simp only [clearPrev]
              rw [List.set_append_left _ _ hji,
                List.append_cons (pre.set j none) none rest,
                show pre.length + 1 = (pre.set j none ++ [none]).length by
                  simp,
                ih (pre.set j none ++ [none]) rest hf]
              have hdl : (pre.set j none).filterMap id =
                  (pre.filterMap id).dropLast :=
                opt_set_none_filterMap_dropLast pre j a hja hafter
              simp [collapseStep, hdl]
          · rw [if_neg hdd, List.append_cons pre (some s) rest,
              show pre.length + 1 = (pre ++ [some s]).length by simp,
              ih (pre ++ [some s]) rest hf]
            have hstep : collapseStep (pre.filterMap id) s =
                pre.filterMap id ++ [s] := by
              unfold collapseStep
              rw [if_neg hdot, if_neg hdd]
            simp [hstep]

/-- Specialization: the whole marking pass over an all-live segment
array equals the fold from the empty accumulator. -/
theorem collapse_marks (segs : List (List Char)) :
    (markLoopF segs.length (segs.map some) 0).filterMap id =
      segs.foldl collapseStep [] := by
  have h := markLoopF_filterMap segs.length [] (segs.map some) (by simp)
  simpa [List.filterMap_map] using h

/-- Unfolding `intercalate` over a nonempty tail. -/
theorem intercalate_cons_ne_nil {γ : Type} (sep a : List γ)
    (l : List (List γ)) (h : l ≠ []) :
    List.intercalate sep (a :: l) = a ++ sep ++ List.intercalate sep l := by
  cases l with
  | nil => exact absurd rfl h
  | cons b m => simp [List.intercalate, List.append_assoc]

/-- A trailing separator adds no segment to the scan. -/
theorem segScan_append_slash :
    ∀ (l : List Char) (cur : Option (List Char)),
      segScan cur (l ++ ['/']) = segScan cur l := by
  intro l
  induction l with
  | nil =>
    intro cur
    cases cur <;> rfl
  | cons h t ih =>
    intro cur
    by_cases hh : h = '/'
    · subst hh
      cases cur with
      | some s => exact congrArg (fun x => s.reverse :: x) (ih none)
      | none => exact ih none
    · cases cur with
      | some s =>
        rw [List.cons_append, segScan, if_neg hh, segScan, if_neg hh]
        exact ih (some (h :: s))
      | none =>
        rw [List.cons_append, segScan, if_neg hh, segScan, if_neg hh]
        exact ih (some [h])

/-- Function `splitNames` on a sequence not starting with a separator is the
plain scan. -/
theorem splitNames_of_head_ne (l : List Char) (h : l.head? ≠ some '/') :
    splitNames l = segScan none l := by
  cases l with
  | nil => rfl
  | cons c t =>
    have hc : c ≠ '/' := by
      intro hh
      subst hh
      exact h rfl
    unfold splitNames
    split
    · next rest heq =>
      injection heq with h1 h2
      exact absurd h1 hc
    · rfl

/-- A trailing separator does not change the name segments. -/
theorem splitNames_append_slash (l : List Char) (hne : l ≠ [])
    (hh : l.head? ≠ some '/') :
    splitNames (l ++ ['/']) = splitNames l := by
  have h1 : (l ++ ['/']).head? ≠ some '/' := by
    cases l with
    | nil => exact absurd rfl hne
    | cons c t => simpa using hh
  rw [splitNames_of_head_ne _ h1, splitNames_of_head_ne _ hh,
    segScan_append_slash]

/-- Rebuilding the scanned segments with single separators recovers a
separator-clean name sequence (no duplicate separators, none at the
end, and none at the start when the scan begins outside a segment). -/
theorem segScan_intercalate_aux :
    ∀ (l : List Char) (cur : Option (List Char)),
      List.Chain' sepRel l → l.getLast? ≠ some '/' →
      (cur = none → l ≠ [] ∧ l.head? ≠ some '/') →
      List.intercalate ['/'] (segScan cur l) =
        (match cur with
         | some s => s.reverse ++ l
         | none => l) := by
  intro l
  induction l with
  | nil =>
    intro cur _ _ hnone
    cases cur with
    | some s => simp [segScan, List.intercalate]
    | none => exact absurd rfl (hnone rfl).1
  | cons c t ih =>
    intro cur hch hlast hnone
    by_cases hc : c = '/'
    · subst hc
      cases cur with
      | none => exact absurd rfl (hnone rfl).2
      | some s =>
        cases t with
        | nil => simp at hlast
        | cons d t2 =>
          have hd : d ≠ '/' := fun hdd =>
            (List.chain'_cons.mp hch).1 ⟨rfl, hdd⟩
          rw [show segScan (some s) ('/' :: d :: t2) =
            s.reverse :: segScan none (d :: t2) from rfl]
          have htail_ch : List.Chain' sepRel (d :: t2) :=
            (List.chain'_cons.mp hch).2
          have htail_last : (d :: t2).getLast? ≠ some '/' := by
            rwa [List.getLast?_cons_cons] at hlast
          have hrec := ih none htail_ch htail_last
            (fun _ => ⟨by simp, by simpa using hd⟩)
          have hne : segScan none (d :: t2) ≠ [] := by
            intro hemp
            rw [hemp] at hrec
            simp [List.intercalate] at hrec
          rw [intercalate_cons_ne_nil _ _ _ hne, hrec]
          simp
    · have htail_ch : List.Chain' sepRel t := List.Chain'.tail hch
      have htail_last : t.getLast? ≠ some '/' := by
        cases t with
        | nil => simp
        | cons u v => rwa [List.getLast?_cons_cons] at hlast
      cases cur with
      | some s =>
        simp only [segScan, if_neg hc]
        have hrec := ih (some (c :: s)) htail_ch htail_last
          (fun hh => nomatch hh)
        rw [hrec]
        simp
      | none =>
        simp only [segScan, if_neg hc]
        have hrec := ih (some [c]) htail_ch htail_last
          (fun hh => nomatch hh)
        rw [hrec]
        simp

/-- Round trip: joining the split names of a clean sequence with single
separators recovers it. -/
theorem intercalate_splitNames (l : List Char) (hne : l ≠ [])
    (hh : l.head? ≠ some '/') (hch : List.Chain' sepRel l)
    (hlast : l.getLast? ≠ some '/') :
    List.intercalate ['/'] (splitNames l) = l := by
  rw [splitNames_of_head_ne l hh]
  simpa using segScan_intercalate_aux l none hch hlast (fun _ => ⟨hne, hh⟩)

/-- Without dot segments the fold keeps every segment in order. -/
theorem foldl_collapseStep_of_no_dots :
    ∀ (segs : List (List Char)) (acc : List (List Char)),
      (∀ s ∈ segs, s ≠ ['.'] ∧ s ≠ ['.', '.']) →
      segs.foldl collapseStep acc = acc ++ segs := by
  intro segs
  induction segs with
  | nil => intro acc _; simp
  | cons s t ih =>
    intro acc h
    have hs := h s (List.mem_cons_self s t)
    rw [List.foldl_cons,
      show collapseStep acc s = acc ++ [s] from by
        unfold collapseStep
        rw [if_neg hs.1, if_neg hs.2],
      ih (acc ++ [s]) fun x hx => h x (List.mem_cons_of_mem s hx)]
    simp

/-- On a path with no duplicate separator pair, `removeDupSeparator`
only trims the trailing separator. -/
theorem dedupPath_of_chain (path : List Char)
    (h : List.Chain' sepRel path) :
    dedupPath path =
      if path.getLast? = some '/' ∧ 1 < path.length then path.dropLast
      else path := by
  cases path with
  | nil => rfl
  | cons c rest =>
    have hch : rest.Chain sepRel c := h
    have hdl : dedupLoop c rest = rest := by
      have h1 : c :: dedupLoop c rest = List.destutter' sepRel c rest :=
        dedupLoop_destutter' rest c
      have h2 : List.destutter' sepRel c rest = c :: rest :=
        List.destutter'_of_chain _ _ hch
      exact (List.cons.inj (h1.trans h2)).2
    have h1 : removeDupSeparator (c :: rest) =
        if (c :: rest).getLast? = some '/' ∧
            1 < (c :: dedupLoop c rest).length then
          some (c :: dedupLoop c rest).dropLast
        else some (c :: dedupLoop c rest) := rfl
    rw [hdl] at h1
    unfold dedupPath
    rw [h1]
    by_cases hcond : (c :: rest).getLast? = some '/' ∧ 1 < (c :: rest).length
    · rw [if_pos hcond, if_pos hcond]
    · rw [if_neg hcond, if_neg hcond]

/-- The leading separator and the name sequence reassemble the path. -/
theorem leadSep_append_namesOf (p : List Char) :
    leadSep p ++ namesOf p = p := by
  unfold leadSep namesOf
  cases p with
  | nil => rfl
  | cons c t =>
    by_cases hc : c = '/'
    · subst hc
      rw [if_pos (show ('/' :: t).head? = some '/' from rfl),
        if_pos (show ('/' :: t).head? = some '/' from rfl)]
      rfl
    · have hcc : (c :: t).head? ≠ some '/' := fun hh =>
        hc (Option.some.inj hh)
      rw [if_neg hcc, if_neg hcc]
      rfl

/-- For a separator-normal path (no duplicate pair, no removable
trailing separator), the name sequence is clean: nonempty head is not a
separator, no duplicate pair inside, and no trailing separator. -/
theorem namesOf_clean (path : List Char)
    (hnd : List.Chain' sepRel path)
    (hlast : ¬(path.getLast? = some '/' ∧ 1 < path.length))
    (hne : namesOf path ≠ []) :
    (namesOf path).head? ≠ some '/' ∧
      List.Chain' sepRel (namesOf path) ∧
      (namesOf path).getLast? ≠ some '/' := by
  cases path with
  | nil => exact absurd rfl hne
  | cons c t =>
    by_cases hc : c = '/'
    · subst hc
      have hno : namesOf ('/' :: t) = t := by
        unfold namesOf
        rw [if_pos (show ('/' :: t).head? = some '/' from rfl)]
        rfl
      rw [hno] at hne ⊢
      cases t with
      | nil => exact absurd rfl hne
      | cons d t2 =>
        have hdd : sepRel '/' d ∧ List.Chain' sepRel (d :: t2) :=
          List.chain'_cons.mp hnd
        refine ⟨?_, hdd.2, ?_⟩
        · intro hh
          exact hdd.1 ⟨rfl, Option.some.inj hh⟩
        · intro hl
          apply hlast
          refine ⟨?_, by simp only [List.length_cons]; omega⟩
          rw [List.getLast?_cons_cons]
          exact hl
    · have hno : namesOf (c :: t) = c :: t := by
        unfold namesOf
        rw [if_neg (show ¬((c :: t).head? = some '/') from
          fun hh => hc (Option.some.inj hh))]
      rw [hno]
      refine ⟨fun hh => hc (Option.some.inj hh), hnd, ?_⟩
      cases t with
      | nil =>
        intro hl
        exact hc (Option.some.inj hl)
      | cons d t2 =>
        intro hl
        exact hlast ⟨hl, by simp only [List.length_cons]; omega⟩

/-- Common part of the collapse/claim comparison: once the path is in
separator-normal form with a clean name sequence of at least two
segments, the marked-and-rejoined result equals the folded claim-side
result. -/
theorem collapse_core (q : List Char)
    (hne : namesOf q ≠ []) (hh : (namesOf q).head? ≠ some '/')
    (hch : List.Chain' sepRel (namesOf q))
    (hlast : (namesOf q).getLast? ≠ some '/')
    (hseg : 2 ≤ (splitNames (namesOf q)).length) :
    (if collapsible (namesOf q) < 2 then q
     else leadSep q ++ joinNames
       (markLoopF (collapsible (namesOf q))
         ((splitNames (namesOf q)).map some) 0)) =
    leadSep q ++
      List.intercalate ['/']
        ((splitNames (namesOf q)).foldl collapseStep []) := by
  by_cases hdots :
      ∃ s ∈ splitNames (namesOf q), s = ['.'] ∨ s = ['.', '.']
  · have hnc : collapsible (namesOf q) =
        (splitNames (namesOf q)).length := by
      unfold collapsible
      rw [if_pos hdots]
    rw [hnc, if_neg (by omega)]
    unfold joinNames
    rw [collapse_marks]
  · have hnc : collapsible (namesOf q) = 0 := by
      unfold collapsible
      rw [if_neg hdots]
    rw [hnc, if_pos (by omega)]
    push_neg at hdots
    rw [foldl_collapseStep_of_no_dots _ [] hdots, List.nil_append,
      intercalate_splitNames _ hne hh hch hlast]
    exact (leadSep_append_namesOf q).symm

end Canon

/-- C8 (amended): on a path free of duplicate separator pairs whose
name sequence has at least two segments, `collapse` equals the
claim-side reference `collapseClaim`: every `"."` segment is removed,
every `".."` removes itself and the nearest preceding surviving segment
when one exists (only itself otherwise), and the survivors are rejoined
with single separators, keeping the leading separator of an absolute
path. -/
theorem c8_collapse_refines_claim (path : List Char)
    (hnd : List.Chain' Canon.sepRel path)
    (hseg : 2 ≤ (Canon.splitNames (Canon.namesOf path)).length) :
    Canon.collapse path = Canon.collapseClaim path := by
  have hp1 := Canon.dedupPath_of_chain path hnd
  by_cases htr : path.getLast? = some '/' ∧ 1 < path.length
  · rw [if_pos htr] at hp1
    have hpne : path ≠ [] := by
      intro hnil
      rw [hnil] at htr
      simp at htr
    have hgl : path.getLast hpne = '/' := by
      have hq := List.getLast?_eq_getLast path hpne
      rw [htr.1] at hq
      exact (Option.some.inj hq).symm
    obtain ⟨p1, hpd⟩ : ∃ p1 : List Char, path = p1 ++ ['/'] := by
      refine ⟨path.dropLast, ?_⟩
      have hq := List.dropLast_concat_getLast hpne
      rw [hgl] at hq
      exact hq.symm
    subst hpd
    rw [List.dropLast_concat] at hp1
    have hp1ne : p1 ≠ [] := by
      intro hn
      subst hn
      simp at htr
    have hsplit := List.chain'_append.mp hnd
    have hch1 : List.Chain' Canon.sepRel p1 := hsplit.1
    have hlast1 : p1.getLast? ≠ some '/' := by
      intro hl
      exact hsplit.2.2 '/' hl '/' rfl ⟨rfl, rfl⟩
    have hcl : ¬(p1.getLast? = some '/' ∧ 1 < p1.length) := fun hq =>
      hlast1 hq.1
    have hhead : (p1 ++ ['/']).head? = p1.head? := by
      cases p1 with
      | nil => exact absurd rfl hp1ne
      | cons a b => rfl
    have hno : Canon.namesOf (p1 ++ ['/']) = Canon.namesOf p1 ++ ['/'] := by
      unfold Canon.namesOf
      rw [hhead]
      by_cases hab : p1.head? = some '/'
      · rw [if_pos hab, if_pos hab]
        cases p1 with
        | nil => exact absurd rfl hp1ne
        | cons a b => rfl
      · rw [if_neg hab, if_neg hab]
    have hnp1ne : Canon.namesOf p1 ≠ [] := by
      intro hn
      rw [hno, hn] at hseg
      exact absurd hseg (by decide)
    obtain ⟨hh1, hch2, hl2⟩ := Canon.namesOf_clean p1 hch1 hcl hnp1ne
    have hTS : Canon.splitNames (Canon.namesOf (p1 ++ ['/'])) =
        Canon.splitNames (Canon.namesOf p1) := by
      rw [hno]
      exact Canon.splitNames_append_slash _ hnp1ne hh1
    have hlead : Canon.leadSep (p1 ++ ['/']) = Canon.leadSep p1 := by
      unfold Canon.leadSep
      rw [hhead]
    rw [hTS] at hseg
    unfold Canon.collapse Canon.collapseClaim
    rw [hp1, hTS, hlead]
    exact Canon.collapse_core p1 hnp1ne hh1 hch2 hl2 hseg
  · rw [if_neg htr] at hp1
    by_cases hne : Canon.namesOf path = []
    · rw [hne] at hseg
      exact absurd hseg (by decide)
    · obtain ⟨hh, hch, hlast⟩ := Canon.namesOf_clean path hnd htr hne
      unfold Canon.collapse Canon.collapseClaim
      rw [hp1]
      exact Canon.collapse_core path hne hh hch hlast hseg

/-- Witness for C8 at `"a/./b/../c"`, which collapses to `"a/c"`. -/
theorem c8_witness :
    Canon.collapse (("a/./b/../c").toList) = ("a/c").toList ∧
    Canon.collapseClaim (("a/./b/../c").toList) = ("a/c").toList := by
  constructor
  · refine (c8_collapse_refines_claim (("a/./b/../c").toList) ?_
      (by decide)).trans (by decide)
    rw [show ("a/./b/../c").toList =
      ['a', '/', '.', '/', 'b', '/', '.', '.', '/', 'c'] from rfl]
    repeat first
    | exact List.Chain.nil
    | refine List.Chain.cons (by decide) ?_
  · decide

namespace Canon

/-- The deduplication scan never lengthens its input. -/
theorem dedupLoop_length :
    ∀ (l : List Char) (prev : Char), (dedupLoop prev l).length ≤ l.length := by
  intro l
  induction l with
  | nil => intro prev; exact Nat.le_refl _
  | cons c t ih =>
    intro prev
    by_cases hc : c = '/' ∧ prev = '/'
    · rw [dedupLoop, if_pos hc]
      exact Nat.le_trans (ih c) (by simp)
    · rw [dedupLoop, if_neg hc]
      simpa using ih c

/-- Unfolded form of `dedupPath` on a nonempty path. -/
theorem dedupPath_cons (c : Char) (rest : List Char) :
    dedupPath (c :: rest) =
      if (c :: rest).getLast? = some '/' ∧
          1 < (c :: dedupLoop c rest).length then
        (c :: dedupLoop c rest).dropLast
      else c :: dedupLoop c rest := by
  have h1 : removeDupSeparator (c :: rest) =
      if (c :: rest).getLast? = some '/' ∧
          1 < (c :: dedupLoop c rest).length then
        some (c :: dedupLoop c rest).dropLast
      else some (c :: dedupLoop c rest) := rfl
  unfold dedupPath
  rw [h1]
  by_cases hcond : (c :: rest).getLast? = some '/' ∧
      1 < (c :: dedupLoop c rest).length
  · rw [if_pos hcond, if_pos hcond]
  · rw [if_neg hcond, if_neg hcond]

/-- Duplicate-separator removal never lengthens the path. -/
theorem dedupPath_length_le (path : List Char) :
    (dedupPath path).length ≤ path.length := by
  cases path with
  | nil => exact Nat.le_refl _
  | cons c rest =>
    have hdl := dedupLoop_length rest c
    rw [dedupPath_cons]
    split
    · simp only [List.length_dropLast, List.length_cons]
      omega
    · simp only [List.length_cons]
      omega

/-- Length of `intercalate` over a cons. -/
theorem length_intercalate_cons (sep a : List Char) (l : List (List Char)) :
    (List.intercalate sep (a :: l)).length =
      a.length +
        (if l = [] then 0
         else sep.length + (List.intercalate sep l).length) := by
  cases l with
  | nil => simp [List.intercalate]
  | cons b m =>
    rw [intercalate_cons_ne_nil sep a _ (by simp),
      if_neg (by simp : ¬(b :: m = []))]
    simp [List.length_append]

/-- Length of `intercalate` is monotone along sublists. -/
theorem length_intercalate_mono {l1 l2 : List (List Char)}
    (h : List.Sublist l1 l2) :
    (List.intercalate ['/'] l1).length ≤
      (List.intercalate ['/'] l2).length := by
  induction h with
  | slnil => exact Nat.le_refl _
  | cons a hs ih =>
    refine Nat.le_trans ih ?_
    rename_i m1 m2
    rw [length_intercalate_cons]
    by_cases h2 : m2 = []
    · subst h2
      simp [List.intercalate]
    · rw [if_neg h2]
      omega
  | cons₂ a hs ih =>
    rename_i m1 m2
    rw [length_intercalate_cons, length_intercalate_cons]
    by_cases h1 : m1 = []
    · subst h1
      by_cases h2 : m2 = [] <;> simp [h2]
    · have h2 : m2 ≠ [] := by
        intro hh
        subst hh
        exact h1 (List.sublist_nil.mp hs)
      rw [if_neg h1, if_neg h2]
      omega

/-- The fold only ever keeps a subsequence of accumulator and input. -/
theorem foldl_collapseStep_sublist :
    ∀ (segs acc : List (List Char)),
      List.Sublist (segs.foldl collapseStep acc) (acc ++ segs) := by
  intro segs
  induction segs with
  | nil => intro acc; simp
  | cons s t ih =>
    intro acc
    rw [List.foldl_cons]
    unfold collapseStep
    by_cases h1 : s = ['.']
    · rw [if_pos h1]
      exact (ih acc).trans ((List.sublist_cons_self s t).append_left acc)
    · rw [if_neg h1]
      by_cases h2 : s = ['.', '.']
      · rw [if_pos h2]
        refine (ih acc.dropLast).trans ?_
        refine List.Sublist.trans ?_
          ((List.sublist_cons_self s t).append_left acc)
        exact (List.dropLast_sublist acc).append_right t
      · rw [if_neg h2]
        refine (ih (acc ++ [s])).trans ?_
        rw [List.append_assoc]
        exact List.Sublist.refl _

/-- Rejoining the scanned segments is never longer than the scanned
sequence itself (each separator run contributes at least one
character). -/
theorem segScan_intercalate_length :
    ∀ (l : List Char) (s : List Char),
      (List.intercalate ['/'] (segScan (some s) l)).length ≤
          s.length + l.length ∧
        (List.intercalate ['/'] (segScan none l)).length ≤ l.length := by
  intro l
  induction l with
  | nil =>
    intro s
    constructor
    · simp [segScan, List.intercalate]
    · simp [segScan, List.intercalate]
  | cons c t ih =>
    intro s
    have hsep : (['/'] : List Char).length = 1 := rfl
    by_cases hc : c = '/'
    · subst hc
      constructor
      · rw [show segScan (some s) ('/' :: t) =
          s.reverse :: segScan none t from rfl, length_intercalate_cons]
        have h2 := (ih []).2
        by_cases hse : segScan none t = []
        · rw [if_pos hse]
          simp only [List.length_reverse, List.length_cons]
          omega
        · rw [if_neg hse, hsep]
          simp only [List.length_reverse, List.length_cons]
          omega
      · rw [show segScan none ('/' :: t) = segScan none t from rfl]
        have h2 := (ih []).2
        simp only [List.length_cons]
        omega
    · constructor
      · rw [segScan, if_neg hc]
        show (List.intercalate ['/'] (segScan (some (c :: s)) t)).length ≤
          s.length + (c :: t).length
        have h1 := (ih (c :: s)).1
        simp only [List.length_cons] at h1 ⊢
        omega
      · rw [segScan, if_neg hc]
        show (List.intercalate ['/'] (segScan (some [c]) t)).length ≤
          (c :: t).length
        have h1 := (ih [c]).1
        simp only [List.length_cons, List.length_nil] at h1 ⊢
        omega

/-- Splitting and rejoining any name sequence never lengthens it. -/
theorem intercalate_splitNames_length (names : List Char) :
    (List.intercalate ['/'] (splitNames names)).length ≤ names.length := by
  cases names with
  | nil => simp [splitNames, segScan, List.intercalate]
  | cons c t =>
    have hsep : (['/'] : List Char).length = 1 := rfl
    by_cases hc : c = '/'
    · subst hc
      rw [show splitNames ('/' :: t) = [] :: segScan none t from rfl,
        length_intercalate_cons]
      have h2 := (segScan_intercalate_length t []).2
      by_cases hse : segScan none t = []
      · rw [if_pos hse]
        simp
      · rw [if_neg hse, hsep]
        simp only [List.length_nil, List.length_cons]
        omega
    · rw [splitNames_of_head_ne _ (show ¬((c :: t).head? = some '/') from
        fun hh => hc (Option.some.inj hh))]
      exact (segScan_intercalate_length (c :: t) []).2

/-- Function `collapse` never lengthens the path: duplicate-separator removal
shortens it, and rejoining a subset of its segments shortens it
further. -/
theorem collapse_length_le (path : List Char) :
    (collapse path).length ≤ path.length := by
  have hdedup := dedupPath_length_le path
  unfold collapse
  by_cases hlt : collapsible (namesOf (dedupPath path)) < 2
  · rw [if_pos hlt]
    exact hdedup
  · rw [if_neg hlt]
    have hnc : collapsible (namesOf (dedupPath path)) =
        (splitNames (namesOf (dedupPath path))).length := by
      unfold collapsible
      by_cases hdots : ∃ s ∈ splitNames (namesOf (dedupPath path)),
          s = ['.'] ∨ s = ['.', '.']
      · rw [if_pos hdots]
      · exfalso
        unfold collapsible at hlt
        rw [if_neg hdots] at hlt
        exact hlt (by omega)
    rw [hnc]
    unfold joinNames
    rw [collapse_marks]
    have hsub : List.Sublist
        ((splitNames (namesOf (dedupPath path))).foldl collapseStep [])
        (splitNames (namesOf (dedupPath path))) := by
      have hq := foldl_collapseStep_sublist
        (splitNames (namesOf (dedupPath path))) []
      simpa using hq
    have hmono := length_intercalate_mono hsub
    have hsplit := intercalate_splitNames_length (namesOf (dedupPath path))
    have hlensum : (leadSep (dedupPath path)).length +
        (namesOf (dedupPath path)).length = (dedupPath path).length := by
      have hq := congrArg List.length (leadSep_append_namesOf (dedupPath path))
      simpa [List.length_append] using hq
    rw [List.length_append]
    omega

end Canon

/-- C9 (model level): `collapse` never lengthens the string it rewrites
in place, and, provided `realpath` honours its contract of writing
strictly less than `PATH_MAX` characters, every successful result of
`JDK_Canonicalize` fits in the caller's buffer together with its null
terminator.  Every string the routine stores in the output buffer is
covered: `realpath` results by the hypothesis, the guarded concatenation
by the explicit capacity check, the in-place rewrites by the `collapse`
bound. -/
theorem c9_length_safety :
    (∀ s : List Char, (Canon.collapse s).length ≤ s.length) ∧
    (∀ (env : Canon.Env) (pmax nmd : Nat) (orig : List Char) (len : Nat)
        (r : List Char),
      (∀ p q, env.realpath p = .ok q → q.length < pmax) →
      Canon.JDK_Canonicalize env pmax nmd orig len = .ok r →
      r.length + 1 ≤ len) := by
  refine ⟨Canon.collapse_length_le, ?_⟩
  intro env pmax nmd orig len r honest hok
  by_cases g1 : len < pmax
  · have heqg : Canon.JDK_Canonicalize env pmax nmd orig len =
        .error .EINVAL := by
      unfold Canon.JDK_Canonicalize
      rw [if_pos g1]
    rw [heqg] at hok
    exact absurd hok (by simp)
  · by_cases g2 : pmax ≤ orig.length
    · have heqg : Canon.JDK_Canonicalize env pmax nmd orig len =
          .error .ENAMETOOLONG := by
        unfold Canon.JDK_Canonicalize
        rw [if_neg g1, if_pos g2]
      rw [heqg] at hok
      exact absurd hok (by simp)
    · cases hre : env.realpath orig with
      | ok w =>
        have heqo : Canon.JDK_Canonicalize env pmax nmd orig len =
            .ok (Canon.collapse w) := by
          unfold Canon.JDK_Canonicalize
          rw [if_neg g1, if_neg g2]
          simp only [hre]
        rw [heqo] at hok
        have hr : Canon.collapse w = r := Except.ok.inj hok
        have hwl := honest orig w hre
        have h4 : r.length ≤ w.length := by
          rw [← hr]
          exact Canon.collapse_length_le w
        omega
      | error e =>
        by_cases hte : e = .EINVAL ∨ e = .ELOOP ∨ e = .ENAMETOOLONG ∨
            e = .ENOMEM
        · have heq2 : Canon.JDK_Canonicalize env pmax nmd orig len =
              .error e := by
            unfold Canon.JDK_Canonicalize
            rw [if_neg g1, if_neg g2]
            simp only [hre]
            rw [if_pos hte]
          rw [heq2] at hok
          exact absurd hok (by simp)
        · rw [Canon.JDK_fallback_eq env pmax nmd orig len (by omega)
            (by omega) e hre hte] at hok
          split at hok
          · exact absurd hok (by simp)
          · split at hok
            · exact absurd hok (by simp)
            · obtain ⟨hr, hlen, _⟩ := Canon.finalCheck_ok hok
              subst hr
              omega
          · obtain ⟨hr, hlen, _⟩ := Canon.finalCheck_ok hok
            subst hr
            omega

/-- Witness for C9. -/
theorem c9_witness :
    Canon.JDK_Canonicalize envC9 10 99 (("a").toList) 10 =
      .ok (("/q").toList) ∧
    (("/q").toList).length + 1 ≤ 10 := by
  constructor
  · decide
  · refine (c9_length_safety).2 envC9 10 99 (("a").toList) 10
      (("/q").toList) ?_ (by decide)
    intro p q h
    have h2 : Except.ok (("/q").toList) =
        (Except.ok q : Except Canon.Errno (List Char)) := h
    rw [← Except.ok.inj h2]
    decide
